import Mathlib

/-!
# Verification of the Bezier-cpp curve engine

A shallow embedding, over exact rational arithmetic, of the core of the
`Bezier-cpp` library (`src/bezier.cpp`, `include/Bezier/sturm.h`).

Conventions of the embedding:

* C++ `double` arithmetic is modelled by exact arithmetic in `ℚ`; matrix and
  vector operations of the Eigen facade are modelled by `Matrix (Fin n) (Fin m) ℚ`
  or by explicit finite sums.
* The matrix exponential that Eigen computes for the (nilpotent) subdiagonal
  matrices used by the library is the finite sum `∑ k < n, A^k / k!`, which is
  exact because `A^n = 0` for an `n × n` strictly triangular matrix.
* Comparisons of Euclidean norms `‖v‖ < ε` (whose values are irrational) are
  modelled by the equivalent (for `ε ≥ 0`) comparison of squares
  `‖v‖² < ε²`, which stays inside `ℚ`.
* Subroutines of the code whose value is irrelevant to a claim and which the
  code obtains from an external numeric solver (Eigen's companion-matrix
  `PolynomialSolver`, the split-matrix products) are abstracted as function
  parameters.
* A C++ method that mutates its receiver is modelled as a function returning
  the new curve; a method that throws is modelled with `Except`, an early
  `throw` leaving the receiver untouched.
-/

namespace BezierSpec

/-! ## Helpers from the top of `bezier.cpp` -/

/-- `factorial(k) = std::tgamma(k + 1)` from the source, exact on naturals. -/
def factorialQ (k : ℕ) : ℚ := (Nat.factorial k : ℚ)

/-- `binomial(n, k) = factorial(n) / (factorial(k) * factorial(n - k))` from the
source.  Subtraction is `uint` subtraction; all call sites have `k ≤ n`. -/
def binomialQ (n k : ℕ) : ℚ := factorialQ n / (factorialQ k * factorialQ (n - k))

lemma factorialQ_ne_zero (k : ℕ) : factorialQ k ≠ 0 := by
  simpa [factorialQ] using Nat.cast_ne_zero.mpr (Nat.factorial_ne_zero k)

lemma binomialQ_eq_choose {n k : ℕ} (h : k ≤ n) : binomialQ n k = (n.choose k : ℚ) := by
  rw [binomialQ, factorialQ, factorialQ, factorialQ, Nat.cast_choose ℚ h]

/-! ## The Bernstein coefficient matrix (`Curve::bernsteinCoeffs`)

The source builds an `n × n` zero matrix, writes `−1, −2, …, −(n−1)` on the
subdiagonal, applies the matrix exponential, and finally scales row `k` by
`binomial(n−1, k)`. -/

/-- The matrix with `−1, −2, …, −(n−1)` on the subdiagonal and zeros elsewhere. -/
def subdiagMatrix (n : ℕ) : Matrix (Fin n) (Fin n) ℚ :=
  Matrix.of fun i j => if (i : ℕ) = (j : ℕ) + 1 then -((i : ℕ) : ℚ) else 0

/-- Matrix exponential of an `n × n` nilpotent matrix: the series truncates at
`k = n − 1`, so this finite sum is the exact value Eigen's `exp()` computes. -/
def nilExp {n : ℕ} (A : Matrix (Fin n) (Fin n) ℚ) : Matrix (Fin n) (Fin n) ℚ :=
  ∑ k ∈ Finset.range n, ((Nat.factorial k : ℚ))⁻¹ • A ^ k

/-- `Curve::bernsteinCoeffs(n)`: exponential of the subdiagonal matrix with
row `k` scaled by `binomial(n−1, k)`. -/
def bernsteinCoeffs (n : ℕ) : Matrix (Fin n) (Fin n) ℚ :=
  Matrix.of fun i j => binomialQ (n - 1) (i : ℕ) * nilExp (subdiagMatrix n) i j

lemma subdiagMatrix_apply (n : ℕ) (i j : Fin n) :
    subdiagMatrix n i j = if (i : ℕ) = (j : ℕ) + 1 then -((i : ℕ) : ℚ) else 0 := rfl

lemma subdiagMatrix_pow_apply (n k : ℕ) (i j : Fin n) :
    (subdiagMatrix n ^ k) i j =
      if (i : ℕ) = (j : ℕ) + k then ((-1) ^ k * ((i : ℕ).descFactorial k : ℚ)) else 0 := by
  induction k generalizing j with
  | zero =>
    simp only [pow_zero, Matrix.one_apply, Nat.add_zero, Nat.descFactorial_zero]
    by_cases h : i = j
    · simp [h]
    · have : ¬ ((i : ℕ) = (j : ℕ)) := fun hv => h (Fin.ext hv)
      simp [h, this]
  | succ k ih =>
    rw [pow_succ, Matrix.mul_apply]
    by_cases hj : (j : ℕ) + 1 < n
    · have hsum : ∀ m : Fin n,
          (subdiagMatrix n ^ k) i m * subdiagMatrix n m j =
          if m = (⟨(j : ℕ) + 1, hj⟩ : Fin n) then
            (subdiagMatrix n ^ k) i m * (-(((j : ℕ) + 1 : ℕ) : ℚ)) else 0 := by
        intro m
        rw [subdiagMatrix_apply]
        by_cases hm : (m : ℕ) = (j : ℕ) + 1
        · have hm' : m = (⟨(j : ℕ) + 1, hj⟩ : Fin n) := Fin.ext hm
          simp [hm, hm']
        · have hm' : ¬ m = (⟨(j : ℕ) + 1, hj⟩ : Fin n) := by
            intro hc; exact hm (by rw [hc])
          simp [hm, hm']
      rw [Finset.sum_congr rfl fun m _ => hsum m, Finset.sum_ite_eq' Finset.univ]
      simp only [Finset.mem_univ, if_true]
      rw [ih ⟨(j : ℕ) + 1, hj⟩]
      simp only [Fin.val_mk]
      by_cases hij : (i : ℕ) = (j : ℕ) + 1 + k
      · have hij' : (i : ℕ) = (j : ℕ) + (k + 1) := by omega
        have hdesc : (i : ℕ).descFactorial (k + 1) = ((i : ℕ) - k) * (i : ℕ).descFactorial k :=
          Nat.descFactorial_succ _ _
        have hsub : (i : ℕ) - k = (j : ℕ) + 1 := by omega
        rw [if_pos hij, if_pos hij', hdesc, hsub]
        push_cast
        ring
      · have hij' : ¬ ((i : ℕ) = (j : ℕ) + (k + 1)) := by omega
        rw [if_neg hij, if_neg hij', zero_mul]
    · have hzero : ∀ m : Fin n, (subdiagMatrix n ^ k) i m * subdiagMatrix n m j = 0 := by
        intro m
        have : ¬ ((m : ℕ) = (j : ℕ) + 1) := by
          have := m.isLt; omega
        rw [subdiagMatrix_apply]
        simp [this]
      rw [Finset.sum_congr rfl fun m _ => hzero m, Finset.sum_const_zero]
      have : ¬ ((i : ℕ) = (j : ℕ) + (k + 1)) := by
        have := i.isLt; omega
      simp [this]

lemma nilExp_subdiag_apply (n : ℕ) (i j : Fin n) :
    nilExp (subdiagMatrix n) i j =
      if (j : ℕ) ≤ (i : ℕ) then
        ((-1) ^ ((i : ℕ) - (j : ℕ)) * (((i : ℕ).choose (j : ℕ) : ℕ) : ℚ)) else 0 := by
  rw [nilExp]
  rw [Matrix.sum_apply]
  simp only [Matrix.smul_apply, subdiagMatrix_pow_apply, smul_eq_mul]
  by_cases hji : (j : ℕ) ≤ (i : ℕ)
  · rw [Finset.sum_eq_single ((i : ℕ) - (j : ℕ))]
    · have hcond : (i : ℕ) = (j : ℕ) + ((i : ℕ) - (j : ℕ)) := by omega
      have hdesc : ((i : ℕ).descFactorial ((i : ℕ) - (j : ℕ)) : ℚ) =
          ((Nat.factorial ((i : ℕ) - (j : ℕ)) : ℕ) : ℚ) *
            (((i : ℕ).choose ((i : ℕ) - (j : ℕ)) : ℕ) : ℚ) := by
        rw [← Nat.cast_mul, Nat.descFactorial_eq_factorial_mul_choose]
      have hsymm : (i : ℕ).choose ((i : ℕ) - (j : ℕ)) = (i : ℕ).choose (j : ℕ) :=
        Nat.choose_symm hji
      rw [if_pos hcond, if_pos hji, hdesc, hsymm]
      have hne : ((Nat.factorial ((i : ℕ) - (j : ℕ)) : ℕ) : ℚ) ≠ 0 :=
        Nat.cast_ne_zero.mpr (Nat.factorial_ne_zero _)
      field_simp
      ring
    · intro k _ hk
      have : ¬ ((i : ℕ) = (j : ℕ) + k) := by omega
      simp [this]
    · intro habs
      exact absurd (Finset.mem_range.mpr (lt_of_le_of_lt (Nat.sub_le _ _) i.isLt)) habs
  · rw [if_neg hji, Finset.sum_eq_zero]
    intro k _
    have : ¬ ((i : ℕ) = (j : ℕ) + k) := by omega
    simp [this]

lemma bernsteinCoeffs_apply (n : ℕ) (i j : Fin n) :
    bernsteinCoeffs n i j =
      if (j : ℕ) ≤ (i : ℕ) then
        (((n - 1).choose (i : ℕ) : ℕ) : ℚ) *
          ((-1) ^ ((i : ℕ) - (j : ℕ)) * (((i : ℕ).choose (j : ℕ) : ℕ) : ℚ))
      else 0 := by
  have hi : (i : ℕ) ≤ n - 1 := by have := i.isLt; omega
  rw [bernsteinCoeffs, Matrix.of_apply, nilExp_subdiag_apply, binomialQ_eq_choose hi]
  by_cases hji : (j : ℕ) ≤ (i : ℕ) <;> simp [hji]

/-! ## The curve data model and `Curve::valueAt` -/

/-- A planar Bézier curve: `N_` control points, each an `(x, y)` row of the
`N × 2` matrix `control_points_`. -/
structure Curve where
  N : ℕ
  P : Fin N → ℚ × ℚ

/-- `Curve::valueAt(t)`: for `N_ == 0` the origin, otherwise
`[1, t, …, t^(N−1)] · bernsteinCoeffs(N) · control_points_`, one coordinate per
column. -/
def valueAt (c : Curve) (t : ℚ) : ℚ × ℚ :=
  if c.N = 0 then (0, 0)
  else (∑ i : Fin c.N, t ^ (i : ℕ) * ∑ j : Fin c.N, bernsteinCoeffs c.N i j * (c.P j).1,
        ∑ i : Fin c.N, t ^ (i : ℕ) * ∑ j : Fin c.N, bernsteinCoeffs c.N i j * (c.P j).2)

/-- Reference evaluation, stated from the spec's glossary:
`C(t) = Σ_k C(n−1,k) · (1−t)^(n−1−k) · t^k · P_k`.  Used only to compare
`valueAt` against the de Casteljau/Bernstein form. -/
def bernsteinRefEval (c : Curve) (t : ℚ) : ℚ × ℚ :=
  (∑ k : Fin c.N,
      (((c.N - 1).choose (k : ℕ) : ℕ) : ℚ) * (1 - t) ^ (c.N - 1 - (k : ℕ)) * t ^ (k : ℕ) *
        (c.P k).1,
   ∑ k : Fin c.N,
      (((c.N - 1).choose (k : ℕ) : ℕ) : ℚ) * (1 - t) ^ (c.N - 1 - (k : ℕ)) * t ^ (k : ℕ) *
        (c.P k).2)

/-- The chain identity `C(a, j+m) · C(j+m, j) = C(a, j) · C(a−j, m)` over `ℚ`. -/
lemma choose_chainQ (a j m : ℕ) (h : j + m ≤ a) :
    ((a.choose (j + m) : ℕ) : ℚ) * (((j + m).choose j : ℕ) : ℚ) =
      ((a.choose j : ℕ) : ℚ) * (((a - j).choose m : ℕ) : ℚ) := by
  have hja : j ≤ a := le_trans (Nat.le_add_right _ _) h
  have hjm : j ≤ j + m := Nat.le_add_right _ _
  have hma : m ≤ a - j := by omega
  rw [Nat.cast_choose ℚ h, Nat.cast_choose ℚ hjm, Nat.cast_choose ℚ hja, Nat.cast_choose ℚ hma]
  have h1 : a - (j + m) = a - j - m := by omega
  have h2 : j + m - j = m := by omega
  rw [h1, h2]
  have f1 := factorialQ_ne_zero (a - j)
  have f2 := factorialQ_ne_zero j
  have f3 := factorialQ_ne_zero m
  have f4 := factorialQ_ne_zero (a - j - m)
  have f5 := factorialQ_ne_zero (j + m)
  simp only [factorialQ] at f1 f2 f3 f4 f5
  field_simp
  ring

/-- Column `j` of the Bernstein matrix, contracted with the power basis, is the
`j`-th Bernstein basis polynomial `C(n−1,j) (1−t)^(n−1−j) t^j`. -/
lemma bernstein_column (n : ℕ) (j : Fin n) (t : ℚ) :
    ∑ i : Fin n, t ^ (i : ℕ) * bernsteinCoeffs n i j =
      (((n - 1).choose (j : ℕ) : ℕ) : ℚ) * (1 - t) ^ (n - 1 - (j : ℕ)) * t ^ (j : ℕ) := by
  have hstep : ∀ i : Fin n, t ^ (i : ℕ) * bernsteinCoeffs n i j =
      (if (j : ℕ) ≤ (i : ℕ) then
          t ^ (i : ℕ) * ((((n - 1).choose (i : ℕ) : ℕ) : ℚ) *
            ((-1) ^ ((i : ℕ) - (j : ℕ)) * (((i : ℕ).choose (j : ℕ) : ℕ) : ℚ))) else 0) := by
    intro i
    rw [bernsteinCoeffs_apply]
    by_cases hji : (j : ℕ) ≤ (i : ℕ) <;> simp [hji]
  rw [Finset.sum_congr rfl fun i _ => hstep i]
  rw [Fin.sum_univ_eq_sum_range (fun i : ℕ => if (j : ℕ) ≤ i then
      t ^ i * ((((n - 1).choose i : ℕ) : ℚ) *
        ((-1) ^ (i - (j : ℕ)) * ((i.choose (j : ℕ) : ℕ) : ℚ))) else 0) n]
  have hjn : (j : ℕ) ≤ n := le_of_lt j.isLt
  rw [Finset.range_eq_Ico, ← Finset.sum_Ico_consecutive _ (Nat.zero_le (j : ℕ)) hjn]
  have hlow : ∑ i ∈ Finset.Ico 0 (j : ℕ),
      (if (j : ℕ) ≤ i then t ^ i * ((((n - 1).choose i : ℕ) : ℚ) *
        ((-1) ^ (i - (j : ℕ)) * ((i.choose (j : ℕ) : ℕ) : ℚ))) else 0) = 0 := by
    refine Finset.sum_eq_zero fun i hi => ?_
    have : ¬ ((j : ℕ) ≤ i) := by
      have := Finset.mem_Ico.mp hi; omega
    simp [this]
  rw [hlow, zero_add, Finset.sum_Ico_eq_sum_range]
  have hform : ∀ m ∈ Finset.range (n - (j : ℕ)),
      (if (j : ℕ) ≤ (j : ℕ) + m then
        t ^ ((j : ℕ) + m) * ((((n - 1).choose ((j : ℕ) + m) : ℕ) : ℚ) *
          ((-1) ^ ((j : ℕ) + m - (j : ℕ)) * ((((j : ℕ) + m).choose (j : ℕ) : ℕ) : ℚ))) else 0)
      = (((n - 1).choose (j : ℕ) : ℕ) : ℚ) * t ^ (j : ℕ) *
          ((-t) ^ m * (1 : ℚ) ^ (n - 1 - (j : ℕ) - m) *
            (((n - 1 - (j : ℕ)).choose m : ℕ) : ℚ)) := by
    intro m hm
    have hmlt : m < n - (j : ℕ) := Finset.mem_range.mp hm
    have hle : (j : ℕ) ≤ (j : ℕ) + m := Nat.le_add_right _ _
    have hcanc : (j : ℕ) + m - (j : ℕ) = m := by omega
    have hbound : (j : ℕ) + m ≤ n - 1 := by have := j.isLt; omega
    rw [if_pos hle, hcanc]
    have hchain := choose_chainQ (n - 1) (j : ℕ) m hbound
    rw [neg_pow, one_pow, pow_add]
    linear_combination (t ^ (j : ℕ) * t ^ m * (-1 : ℚ) ^ m) * hchain
  rw [Finset.sum_congr rfl hform, ← Finset.mul_sum]
  have hrange : n - (j : ℕ) = (n - 1 - (j : ℕ)) + 1 := by have := j.isLt; omega
  rw [hrange, ← add_pow (-t) 1 (n - 1 - (j : ℕ))]
  have : -t + 1 = 1 - t := by ring
  rw [this]
  ring

/-- Scalar core of claim C1: the power-basis/Bernstein-matrix contraction of any
column vector equals its Bernstein-basis combination. -/
lemma power_basis_contraction (n : ℕ) (p : Fin n → ℚ) (t : ℚ) :
    ∑ i : Fin n, t ^ (i : ℕ) * ∑ j : Fin n, bernsteinCoeffs n i j * p j =
      ∑ k : Fin n,
        (((n - 1).choose (k : ℕ) : ℕ) : ℚ) * (1 - t) ^ (n - 1 - (k : ℕ)) * t ^ (k : ℕ) * p k := by
  have hswap : ∑ i : Fin n, t ^ (i : ℕ) * ∑ j : Fin n, bernsteinCoeffs n i j * p j =
      ∑ j : Fin n, (∑ i : Fin n, t ^ (i : ℕ) * bernsteinCoeffs n i j) * p j := by
    simp_rw [Finset.mul_sum]
    rw [Finset.sum_comm]
    simp_rw [Finset.sum_mul]
    exact Finset.sum_congr rfl fun j _ => Finset.sum_congr rfl fun i _ => by ring
  rw [hswap]
  refine Finset.sum_congr rfl fun k _ => ?_
  rw [bernstein_column]

/-- `valueAt` agrees with the reference Bernstein/de Casteljau evaluation for
every curve and every parameter (the identity is algebraic, no domain
restriction is needed). -/
lemma valueAt_eq_bernsteinRef (c : Curve) (h : 1 ≤ c.N) (t : ℚ) :
    valueAt c t = bernsteinRefEval c t := by
  have hne : c.N ≠ 0 := by omega
  rw [valueAt, bernsteinRefEval, if_neg hne]
  refine Prod.ext ?_ ?_
  · exact power_basis_contraction c.N (fun j => (c.P j).1) t
  · exact power_basis_contraction c.N (fun j => (c.P j).2) t

/-! ## Order elevation (`Curve::elevateOrderCoeffs`, `Curve::elevateOrder`) -/

/-- `Curve::elevateOrderCoeffs(n)`: the `(n+1) × n` matrix with main diagonal
`1 − k/n` (`k = 0..n−1`) and subdiagonal `(k+1)/n`. -/
def elevateOrderCoeffs (n : ℕ) : Matrix (Fin (n + 1)) (Fin n) ℚ :=
  Matrix.of fun i j =>
    if (i : ℕ) = (j : ℕ) then 1 - ((j : ℕ) : ℚ) / (n : ℚ)
    else if (i : ℕ) = (j : ℕ) + 1 then (((j : ℕ) : ℚ) + 1) / (n : ℚ)
    else 0

/-- `Curve::elevateOrder()`: replaces the control points by
`elevateOrderCoeffs(N) · control_points_` (and `N_` becomes `N + 1`). -/
def elevateOrder (c : Curve) : Curve :=
  ⟨c.N + 1, fun i =>
    (∑ j : Fin c.N, elevateOrderCoeffs c.N i j * (c.P j).1,
     ∑ j : Fin c.N, elevateOrderCoeffs c.N i j * (c.P j).2)⟩

/-- The two nonzero entries of column `j` of `E_n`, contracted with the degree-`n`
Bernstein basis, reproduce the degree-`n−1` Bernstein polynomial of index `j`. -/
lemma elevate_column (n : ℕ) (hn : 1 ≤ n) (j : Fin n) (t : ℚ) :
    ∑ i : Fin (n + 1),
        ((n.choose (i : ℕ) : ℕ) : ℚ) * (1 - t) ^ (n - (i : ℕ)) * t ^ (i : ℕ) *
          elevateOrderCoeffs n i j =
      (((n - 1).choose (j : ℕ) : ℕ) : ℚ) * (1 - t) ^ (n - 1 - (j : ℕ)) * t ^ (j : ℕ) := by
  classical
  have hsplit : ∀ i : Fin (n + 1),
      ((n.choose (i : ℕ) : ℕ) : ℚ) * (1 - t) ^ (n - (i : ℕ)) * t ^ (i : ℕ) *
          elevateOrderCoeffs n i j =
        (if i = Fin.castSucc j then
          ((n.choose (j : ℕ) : ℕ) : ℚ) * (1 - t) ^ (n - (j : ℕ)) * t ^ (j : ℕ) *
            (1 - ((j : ℕ) : ℚ) / (n : ℚ)) else 0) +
        (if i = (Fin.succ j) then
          ((n.choose ((j : ℕ) + 1) : ℕ) : ℚ) * (1 - t) ^ (n - ((j : ℕ) + 1)) *
            t ^ ((j : ℕ) + 1) * ((((j : ℕ) : ℚ) + 1) / (n : ℚ)) else 0) := by
    intro i
    rw [elevateOrderCoeffs, Matrix.of_apply]
    by_cases h1 : (i : ℕ) = (j : ℕ)
    · have hi : i = Fin.castSucc j := Fin.ext (by simpa using h1)
      have hi2 : ¬ i = Fin.succ j := by
        intro hc
        rw [hc] at h1
        simp at h1
      rw [if_pos h1, if_pos hi, if_neg hi2, add_zero, h1]
    · by_cases h2 : (i : ℕ) = (j : ℕ) + 1
      · have hi : i = Fin.succ j := Fin.ext (by simpa using h2)
        have hi1 : ¬ i = Fin.castSucc j := by
          intro hc
          rw [hc] at h2
          simp at h2
        rw [if_neg h1, if_pos h2, if_neg hi1, if_pos hi, zero_add, h2]
      · have hi1 : ¬ i = Fin.castSucc j := by
          intro hc; exact h1 (by rw [hc]; simp)
        have hi2 : ¬ i = Fin.succ j := by
          intro hc; exact h2 (by rw [hc]; simp)
        rw [if_neg h1, if_neg h2, if_neg hi1, if_neg hi2, add_zero, mul_zero]
  rw [Finset.sum_congr rfl fun i _ => hsplit i, Finset.sum_add_distrib,
    Finset.sum_ite_eq' Finset.univ, Finset.sum_ite_eq' Finset.univ]
  simp only [Finset.mem_univ, if_true]
  have hnq : ((n : ℕ) : ℚ) ≠ 0 := Nat.cast_ne_zero.mpr (by omega)
  have hjn : (j : ℕ) < n := j.isLt
  -- coefficient identities: (1 − j/n)·C(n,j) = C(n−1,j) and ((j+1)/n)·C(n,j+1) = C(n−1,j)
  have hc1 : ((n.choose (j : ℕ) : ℕ) : ℚ) * (1 - ((j : ℕ) : ℚ) / (n : ℚ)) =
      (((n - 1).choose (j : ℕ) : ℕ) : ℚ) := by
    have hle : (j : ℕ) ≤ n := le_of_lt hjn
    have hle' : (j : ℕ) ≤ n - 1 := by omega
    rw [Nat.cast_choose ℚ hle, Nat.cast_choose ℚ hle']
    have hfac : (Nat.factorial (n - (j : ℕ)) : ℚ) =
        ((n : ℚ) - ((j : ℕ) : ℚ)) * (Nat.factorial (n - 1 - (j : ℕ)) : ℚ) := by
      have hpos : n - (j : ℕ) = (n - 1 - (j : ℕ)) + 1 := by omega
      rw [hpos, Nat.factorial_succ, Nat.cast_mul]
      congr 1
      have h1 : n - 1 - (j : ℕ) + 1 = n - (j : ℕ) := by omega
      rw [h1, Nat.cast_sub hle]
    have hfacn : (Nat.factorial n : ℚ) = (n : ℚ) * (Nat.factorial (n - 1) : ℚ) := by
      have hpos : n = (n - 1) + 1 := by omega
      calc (Nat.factorial n : ℚ) = (Nat.factorial ((n - 1) + 1) : ℚ) := by rw [← hpos]
        _ = (((n - 1) + 1 : ℕ) : ℚ) * (Nat.factorial (n - 1) : ℚ) := by
            rw [Nat.factorial_succ, Nat.cast_mul]
        _ = (n : ℚ) * (Nat.factorial (n - 1) : ℚ) := by
            congr 1
            norm_cast
            omega
    have hf1 : (Nat.factorial (j : ℕ) : ℚ) ≠ 0 := by
      simpa [factorialQ] using factorialQ_ne_zero (j : ℕ)
    have hf2 : (Nat.factorial (n - 1 - (j : ℕ)) : ℚ) ≠ 0 := by
      simpa [factorialQ] using factorialQ_ne_zero (n - 1 - (j : ℕ))
    have hnj : (n : ℚ) - ((j : ℕ) : ℚ) ≠ 0 := by
      have : ((j : ℕ) : ℚ) < (n : ℚ) := by exact_mod_cast hjn
      intro hc
      have : (n : ℚ) = ((j : ℕ) : ℚ) := by linarith
      linarith
    rw [hfac, hfacn]
    field_simp
    ring
  have hc2 : ((n.choose ((j : ℕ) + 1) : ℕ) : ℚ) * ((((j : ℕ) : ℚ) + 1) / (n : ℚ)) =
      (((n - 1).choose (j : ℕ) : ℕ) : ℚ) := by
    have hle : (j : ℕ) + 1 ≤ n := hjn
    have hle' : (j : ℕ) ≤ n - 1 := by omega
    rw [Nat.cast_choose ℚ hle, Nat.cast_choose ℚ hle']
    have hsub : n - ((j : ℕ) + 1) = n - 1 - (j : ℕ) := by omega
    rw [hsub]
    have hfacn : (Nat.factorial n : ℚ) = (n : ℚ) * (Nat.factorial (n - 1) : ℚ) := by
      have hpos : n = (n - 1) + 1 := by omega
      calc (Nat.factorial n : ℚ) = (Nat.factorial ((n - 1) + 1) : ℚ) := by rw [← hpos]
        _ = (((n - 1) + 1 : ℕ) : ℚ) * (Nat.factorial (n - 1) : ℚ) := by
            rw [Nat.factorial_succ, Nat.cast_mul]
        _ = (n : ℚ) * (Nat.factorial (n - 1) : ℚ) := by
            congr 1
            norm_cast
            omega
    have hfacj : (Nat.factorial ((j : ℕ) + 1) : ℚ) =
        (((j : ℕ) : ℚ) + 1) * (Nat.factorial (j : ℕ) : ℚ) := by
      rw [Nat.factorial_succ, Nat.cast_mul]
      norm_cast
    have hf1 : (Nat.factorial (j : ℕ) : ℚ) ≠ 0 := by
      simpa [factorialQ] using factorialQ_ne_zero (j : ℕ)
    have hf2 : (Nat.factorial (n - 1 - (j : ℕ)) : ℚ) ≠ 0 := by
      simpa [factorialQ] using factorialQ_ne_zero (n - 1 - (j : ℕ))
    have hj1 : (((j : ℕ) : ℚ) + 1) ≠ 0 := by positivity
    rw [hfacn, hfacj]
    field_simp
    ring
  have hpow1 : (1 - t) ^ (n - (j : ℕ)) = (1 - t) ^ (n - 1 - (j : ℕ)) * (1 - t) := by
    have : n - (j : ℕ) = (n - 1 - (j : ℕ)) + 1 := by omega
    rw [this, pow_succ]
  have hpow2 : t ^ ((j : ℕ) + 1) = t ^ (j : ℕ) * t := by rw [pow_succ]
  have hsub2 : n - ((j : ℕ) + 1) = n - 1 - (j : ℕ) := by omega
  calc ((n.choose (j : ℕ) : ℕ) : ℚ) * (1 - t) ^ (n - (j : ℕ)) * t ^ (j : ℕ) *
          (1 - ((j : ℕ) : ℚ) / (n : ℚ)) +
        ((n.choose ((j : ℕ) + 1) : ℕ) : ℚ) * (1 - t) ^ (n - ((j : ℕ) + 1)) *
          t ^ ((j : ℕ) + 1) * ((((j : ℕ) : ℚ) + 1) / (n : ℚ))
      = (((n.choose (j : ℕ) : ℕ) : ℚ) * (1 - ((j : ℕ) : ℚ) / (n : ℚ))) *
          ((1 - t) ^ (n - 1 - (j : ℕ)) * (1 - t)) * t ^ (j : ℕ) +
        (((n.choose ((j : ℕ) + 1) : ℕ) : ℚ) * ((((j : ℕ) : ℚ) + 1) / (n : ℚ))) *
          (1 - t) ^ (n - 1 - (j : ℕ)) * (t ^ (j : ℕ) * t) := by
        rw [hpow1, hpow2, hsub2]; ring
    _ = (((n - 1).choose (j : ℕ) : ℕ) : ℚ) * (1 - t) ^ (n - 1 - (j : ℕ)) * t ^ (j : ℕ) := by
        rw [hc1, hc2]; ring

/-- Scalar core of claim C5: elevating the control vector by `E_n` leaves the
Bernstein-form evaluation unchanged. -/
lemma elevate_preserves (n : ℕ) (hn : 1 ≤ n) (p : Fin n → ℚ) (t : ℚ) :
    ∑ i : Fin (n + 1),
        (((n + 1 - 1).choose (i : ℕ) : ℕ) : ℚ) * (1 - t) ^ (n + 1 - 1 - (i : ℕ)) * t ^ (i : ℕ) *
          (∑ j : Fin n, elevateOrderCoeffs n i j * p j) =
      ∑ j : Fin n,
        (((n - 1).choose (j : ℕ) : ℕ) : ℚ) * (1 - t) ^ (n - 1 - (j : ℕ)) * t ^ (j : ℕ) * p j := by
  simp only [Nat.add_sub_cancel]
  have hswap : ∑ i : Fin (n + 1),
      ((n.choose (i : ℕ) : ℕ) : ℚ) * (1 - t) ^ (n - (i : ℕ)) * t ^ (i : ℕ) *
        (∑ j : Fin n, elevateOrderCoeffs n i j * p j) =
      ∑ j : Fin n, (∑ i : Fin (n + 1),
        ((n.choose (i : ℕ) : ℕ) : ℚ) * (1 - t) ^ (n - (i : ℕ)) * t ^ (i : ℕ) *
          elevateOrderCoeffs n i j) * p j := by
    simp_rw [Finset.mul_sum]
    rw [Finset.sum_comm]
    simp_rw [Finset.sum_mul]
    exact Finset.sum_congr rfl fun j _ => Finset.sum_congr rfl fun i _ => by ring
  rw [hswap]
  exact Finset.sum_congr rfl fun j _ => by rw [elevate_column n hn j t]

/-! ## Derivative curve (`Curve::derivative`) -/

/-- `Curve::derivative()`: for `N_ == 1` the degenerate constant curve at the
origin, otherwise the curve with control points
`(N−1) · (P[1:] − P[:−1])`. -/
def derivativeCurve (c : Curve) : Curve :=
  if c.N = 1 then ⟨1, fun _ => (0, 0)⟩
  else
    ⟨c.N - 1, fun i =>
      (((c.N - 1 : ℕ) : ℚ) *
          ((c.P ⟨(i : ℕ) + 1, by have := i.isLt; omega⟩).1 -
            (c.P ⟨(i : ℕ), by have := i.isLt; omega⟩).1),
       ((c.N - 1 : ℕ) : ℚ) *
          ((c.P ⟨(i : ℕ) + 1, by have := i.isLt; omega⟩).2 -
            (c.P ⟨(i : ℕ), by have := i.isLt; omega⟩).2))⟩

/-- The control points as the `N × 2` row list of the source. -/
def cpList (c : Curve) : List (ℚ × ℚ) := List.ofFn c.P

/-- Rebuild a curve from a row list (constructor from an `n × 2` matrix). -/
def curveOfList (l : List (ℚ × ℚ)) : Curve := ⟨l.length, fun i => l.get i⟩

/-! ## `Curve::roots` (claim C4) -/

/-- `trimZeroes` from the source: drop trailing zero coefficients. -/
def trimZeroes (v : List ℚ) : List ℚ :=
  ((v.reverse).dropWhile (fun x => decide (x = 0))).reverse

/-- Column `x` of the monomial-basis polynomial `Q = B_N · P`, coefficients in
increasing degree order (row `i` holds the coefficient of `t^i`). -/
def curvePolyX (c : Curve) : List ℚ :=
  List.ofFn fun i : Fin c.N => ∑ j : Fin c.N, bernsteinCoeffs c.N i j * (c.P j).1

/-- Column `y` of the monomial-basis polynomial `Q = B_N · P`. -/
def curvePolyY (c : Curve) : List ℚ :=
  List.ofFn fun i : Fin c.N => ∑ j : Fin c.N, bernsteinCoeffs c.N i j * (c.P j).2

/-- `Curve::roots()`.  Eigen's companion-matrix `PolynomialSolver` is external
numerical code, abstracted as the parameter `solver`; the source calls it only
when the trimmed coefficient vector has more than one entry. -/
def rootsC (solver : List ℚ → List ℚ) (c : Curve) : List ℚ :=
  if 1 < c.N then
    let trimmedX := trimZeroes (curvePolyX c)
    let rootsX := if 1 < trimmedX.length then solver trimmedX else []
    let trimmedY := trimZeroes (curvePolyY c)
    let rootsY := if 1 < trimmedY.length then solver trimmedY else []
    rootsX.filter (fun t => decide (0 ≤ t) && decide (t ≤ 1)) ++
      rootsY.filter (fun t => decide (0 ≤ t) && decide (t ≤ 1))
  else []

/-- `Curve::extrema() = derivative().roots()`. -/
def extremaC (solver : List ℚ → List ℚ) (c : Curve) : List ℚ :=
  rootsC solver (derivativeCurve c)

/-! ## Error model (claims C2, C3)

`std::logic_error` and `std::invalid_argument` are distinct exception kinds
(the latter a subclass of the former); both carry a message. -/

inductive CurveError where
  | logicError (msg : String)
  | invalidArgument (msg : String)
deriving DecidableEq

/-- Write row `k` of the control-point matrix. -/
def setControlPoint (c : Curve) (k : ℕ) (p : ℚ × ℚ) : Curve :=
  ⟨c.N, fun i => if (i : ℕ) = k then p else c.P i⟩

/-- `Curve::lowerOrder()`.  The matrix `lowerOrderCoeffs(n)` is the
least-squares pseudo-inverse `(Eᵀ E)⁻¹ Eᵀ`; its numeric content is irrelevant
to claim C2, so the product `lowerOrderCoeffs(N) · P` is abstracted as the
parameter `lowerProduct`.  The throw happens before any mutation, so on error
the returned state is the unchanged receiver. -/
def lowerOrderRun (lowerProduct : ℕ → List (ℚ × ℚ) → List (ℚ × ℚ)) (c : Curve) :
    Except CurveError Unit × Curve :=
  if c.N = 2 then
    (Except.error (CurveError.logicError "Cannot further reduce the order of curve."), c)
  else (Except.ok (), curveOfList (lowerProduct c.N (cpList c)))

/-- `Curve::manipulateCurvature(t, point)`, full translation.  Row accesses use
`getD` with a default that is never reached for the orders the guard admits. -/
def manipulateCurvatureRun (c : Curve) (t : ℚ) (pt : ℚ × ℚ) :
    Except CurveError Unit × Curve :=
  if c.N < 3 ∨ 4 < c.N then
    (Except.error (CurveError.logicError "Only quadratic and cubic curves can be manipulated"), c)
  else
    let P := fun k => (cpList c).getD k (0, 0)
    let r : ℚ := |(t ^ (c.N - 1) + (1 - t) ^ (c.N - 1) - 1) /
        (t ^ (c.N - 1) + (1 - t) ^ (c.N - 1))|
    let u : ℚ := (1 - t) ^ (c.N - 1) / (t ^ (c.N - 1) + (1 - t) ^ (c.N - 1))
    let Cpt : ℚ × ℚ := u • P 0 + (1 - u) • P (c.N - 1)
    let B := pt
    let A : ℚ × ℚ := B - (1 / r) • (Cpt - B)
    if c.N = 3 then (Except.ok (), setControlPoint c 1 A)
    else if c.N = 4 then
      let e1 : ℚ × ℚ := (1 - t) ^ 2 • P 0 + (2 * t * (1 - t)) • P 1 + t ^ 2 • P 2
      let e2 : ℚ × ℚ := (1 - t) ^ 2 • P 1 + (2 * t * (1 - t)) • P 2 + t ^ 2 • P 3
      let e1s := B + e1 - valueAt c t
      let e2s := B + e2 - valueAt c t
      let v1 := A - (1 / (1 - t)) • (A - e1s)
      let v2 := A + (1 / t) • (e2s - A)
      let c1 := setControlPoint c 1 (P 0 + (1 / t) • (v1 - P 0))
      (Except.ok (), setControlPoint c1 2 (P 3 - (1 / (1 - t)) • (P 3 - v2)))
    else (Except.ok (), c)

/-- `Curve::derivative(n)`: rejects `n = 0`, otherwise applies
`derivative()` `n` times. -/
def derivativeN (c : Curve) (n : ℕ) : Except CurveError Curve :=
  if n = 0 then Except.error (CurveError.invalidArgument "double 'n' cannot be zero.")
  else Except.ok (derivativeCurve^[n] c)

/-- `Curve::valueAt` viewed through the exception model: the source contains no
domain check on `t` and no throw statement, so every call returns normally. -/
def valueAtChecked (c : Curve) (t : ℚ) : Except CurveError (ℚ × ℚ) :=
  Except.ok (valueAt c t)

/-! ## `Curve::iterateByLength` (claims C7, C8)

`length(u)` (`= length(0, u)`, Gauss–Legendre quadrature of `‖C′‖`), `‖C′(t)‖`
and `‖C″(t)‖` are values of external numeric routines; they are abstracted as
the function parameters `len`, `d1`, `d2`.  `length()` is `length(0, 1) = len 1`.
The C++ `while` loop has no iteration guard, so the model carries explicit
fuel; `none` means the loop has not terminated within the given fuel. -/

/-- One iteration of the `while` body: Halley update of `t`, then
`f = length(t) − s_t − s` recomputed at the new `t`.  The state is `(t, f)` and
`sTarget = s_t + s`. -/
def halleyStep (len d1 d2 : ℚ → ℚ) (sTarget : ℚ) (st : ℚ × ℚ) : ℚ × ℚ :=
  let t := st.1
  let f := st.2
  let fd := d1 t
  let tNew := t - (2 * f * fd) / (2 * fd * fd - f * d2 t)
  (tNew, len tNew - sTarget)

/-- The `while (fabs(f) > epsilon)` loop of `iterateByLength`. -/
def halleyLoop (len d1 d2 : ℚ → ℚ) (sTarget ε : ℚ) : ℕ → ℚ × ℚ → Option ℚ
  | 0, _ => none
  | fuel + 1, st =>
    if |st.2| > ε then halleyLoop len d1 d2 sTarget ε fuel (halleyStep len d1 d2 sTarget st)
    else some st.1

/-- `Curve::iterateByLength(t, s, epsilon)`. -/
def iterateByLength (len d1 d2 : ℚ → ℚ) (t s ε : ℚ) (fuel : ℕ) : Option ℚ :=
  let sT := len t
  if sT + s < 0 then some 0
  else if sT + s > len 1 then some 1
  else halleyLoop len d1 d2 (sT + s) ε fuel (t, -s)

/-- The loop as claim C7's sentence reads it — iterate "until `|f| < ε`",
i.e. continue while `|f| ≥ ε`.  It differs from the source loop only in the
stopping comparison. -/
def halleyLoopSpec (len d1 d2 : ℚ → ℚ) (sTarget ε : ℚ) : ℕ → ℚ × ℚ → Option ℚ
  | 0, _ => none
  | fuel + 1, st =>
    if |st.2| ≥ ε then halleyLoopSpec len d1 d2 sTarget ε fuel (halleyStep len d1 d2 sTarget st)
    else some st.1

/-- `iterate_by_length` under the claim's reading of the stopping condition. -/
def iterateByLengthSpec (len d1 d2 : ℚ → ℚ) (t s ε : ℚ) (fuel : ℕ) : Option ℚ :=
  let sT := len t
  if sT + s < 0 then some 0
  else if sT + s > len 1 then some 1
  else halleyLoopSpec len d1 d2 (sT + s) ε fuel (t, -s)

/-! ## The Sturm root isolator (`Sturm::roots` in `sturm.h`, claim C6) -/

/-- `std::signbit` on an exact rational (`ℚ` has no negative zero). -/
def signbitQ (x : ℚ) : Bool := decide (x < 0)

/-- Evaluate a chain row (coefficients highest-degree first) against the
descending power basis `[t^(m−1), …, t, 1]` of its own length, as
`Sturm::interval` does with `sturm_chain * power_basis`. -/
def rowValue (r : List ℚ) (t : ℚ) : ℚ :=
  (List.zipWith (fun c e => c * t ^ e) r ((List.range r.length).map fun k => r.length - 1 - k)).sum

/-- Number of sign changes down a column of chain-row values. -/
def signChanges (vals : List ℚ) : ℕ :=
  (vals.zip vals.tail).countP fun p => signbitQ p.1 != signbitQ p.2

/-- `Sturm::interval(chain, t1, t2)`: sign changes at `t1` minus sign changes
at `t2` (an `int` in the source). -/
def sturmInterval (chain : List (List ℚ)) (t1 t2 : ℚ) : ℤ :=
  (signChanges (chain.map fun r => rowValue r t1) : ℤ) -
    (signChanges (chain.map fun r => rowValue r t2) : ℤ)

/-- The `static_cast<uint>` of the interval count (wraps modulo `2^32`). -/
def sturmRootCount (chain : List (List ℚ)) (a b : ℚ) : ℕ :=
  (sturmInterval chain a b % (2 ^ 32 : ℤ)).toNat

/-- Outcome of one call of the `iterate` lambda inside `Sturm::roots`: discard
the interval, emit a root, or push the two half-intervals. -/
inductive SturmAction where
  | discard
  | emit (r : ℚ)
  | split (left right : ℚ × ℚ × Bool)
deriving DecidableEq

/-- The `iterate` lambda of `Sturm::roots`, for an interval `(a, b, flag)`.
`rootType` is the `RootTypeFlag` bit set (`Convex = 1`, `Concave = 2`,
`Inflection = 4`, `All = 8`). -/
def sturmIterate (chain : List (List ℚ)) (rootType : ℕ) (ε : ℚ) (a b : ℚ) (flag : Bool) :
    SturmAction :=
  let aB := (a + b) / 2
  let count := sturmRootCount chain a b
  let rootNum := if count ≠ 0 ∧ aB - a < ε then 1 else count
  match rootNum with
  | 0 => SturmAction.discard
  | 1 =>
    if aB - a < ε then SturmAction.emit ((a + aB) / 2)
    else if rootType ≠ 8 ∧ flag = false then
      let gA := rowValue (chain.headD []) a
      let gB := rowValue (chain.headD []) b
      if Nat.land rootType 8 ≠ 0 then SturmAction.split (a, aB, flag) (aB, b, flag)
      else
        let flagNew :=
          (Nat.land rootType 1 ≠ 0 ∧ gA ≤ 0 ∧ 0 < gB) ∨
          (Nat.land rootType 2 ≠ 0 ∧ 0 < gA ∧ gB ≤ 0) ∨
          (Nat.land rootType 4 ≠ 0 ∧ ((0 ≤ gA ∧ 0 ≤ gB) ∨ (gA ≤ 0 ∧ gB ≤ 0)))
        if flagNew then SturmAction.split (a, aB, true) (aB, b, true)
        else SturmAction.discard
    else SturmAction.split (a, aB, flag) (aB, b, flag)
  | _ + 2 => SturmAction.split (a, aB, flag) (aB, b, flag)

/-! ## `Curve::intersections` (claims C9, C10)

Control-point matrices of the sub-curves are row lists.  The split-matrix
products `splittingCoeffsLeft/Right(n) · cp` (at `z = ½` inside the loop, at
arbitrary `z` in the self-intersection seeding) are external matrix arithmetic
and are abstracted as function parameters.  Norm comparisons `‖v‖ < ε` are
modelled by `‖v‖² < ε²`, exact for `ε ≥ 0`. -/

/-- Axis-aligned box of a control-point list (`Eigen::AlignedBox2d` built from
per-column min and max), as the `bbox` lambda of the source computes it.  The
source never calls it on an empty matrix. -/
structure Box where
  lo : ℚ × ℚ
  hi : ℚ × ℚ
deriving DecidableEq

/-- Componentwise min/max fold over the rows. -/
def bboxOf (cp : List (ℚ × ℚ)) : Box :=
  match cp with
  | [] => ⟨(0, 0), (0, 0)⟩
  | p :: rest =>
    ⟨(rest.foldl (fun m q => min m q.1) p.1, rest.foldl (fun m q => min m q.2) p.2),
     (rest.foldl (fun m q => max m q.1) p.1, rest.foldl (fun m q => max m q.2) p.2)⟩

/-- `Eigen::AlignedBox2d::intersects`: non-strict overlap on both axes. -/
def boxIntersects (u v : Box) : Bool :=
  decide (u.lo.1 ≤ v.hi.1) && decide (u.lo.2 ≤ v.hi.2) &&
    decide (v.lo.1 ≤ u.hi.1) && decide (v.lo.2 ≤ u.hi.2)

/-- Squared norm of the box diagonal `hi − lo`. -/
def diagSq (u : Box) : ℚ := (u.hi.1 - u.lo.1) ^ 2 + (u.hi.2 - u.lo.2) ^ 2

/-- Box center `(lo + hi) / 2`. -/
def boxCenter (u : Box) : ℚ × ℚ := ((u.lo.1 + u.hi.1) / 2, (u.lo.2 + u.hi.2) / 2)

/-- Squared distance between two points. -/
def distSq (p q : ℚ × ℚ) : ℚ := (p.1 - q.1) ^ 2 + (p.2 - q.2) ^ 2

/-- Outcome of one iteration of the subdivision `while` loop: drop the popped
pair, update the accepted-point list, or push new sub-curve pairs (listed in
the order the source pushes them). -/
inductive IntersectAction where
  | discard
  | accept (pts : List (ℚ × ℚ))
  | push (pairs : List (List (ℚ × ℚ) × List (ℚ × ℚ)))
deriving DecidableEq

/-- One iteration of the loop of `Curve::intersections` on a popped pair
`(partA, partB)` with currently accepted points `pts`.  `splitL`/`splitR` model
the products with the cached `z = ½` split matrices. -/
def intersectionStep (splitL splitR : List (ℚ × ℚ) → List (ℚ × ℚ)) (ε : ℚ)
    (partA partB : List (ℚ × ℚ)) (pts : List (ℚ × ℚ)) : IntersectAction :=
  let bbox1 := bboxOf partA
  let bbox2 := bboxOf partB
  if ¬ boxIntersects bbox1 bbox2 then IntersectAction.discard
  else if diagSq bbox1 < ε ^ 2 ∧ diagSq bbox2 < ε ^ 2 then
    let newPoint := boxCenter bbox1
    IntersectAction.accept
      (if pts.all fun p => ¬ (distSq p newPoint < ε ^ 2) then pts ++ [newPoint] else pts)
  else
    let subA := if diagSq bbox1 < ε ^ 2 then [partA] else [splitR partA, splitL partA]
    let subB := if diagSq bbox2 < ε ^ 2 then [partB] else [splitR partB, splitL partB]
    IntersectAction.push (subB.flatMap fun sb => subA.map fun sa => (sa, sb))

/-- The subdivision `while` loop, with the top of the work stack at the head of
the list; pairs pushed later sit closer to the head.  Fuel models the absence
of an iteration cap. -/
def intersectionsLoop (splitL splitR : List (ℚ × ℚ) → List (ℚ × ℚ)) (ε : ℚ) :
    ℕ → List (List (ℚ × ℚ) × List (ℚ × ℚ)) → List (ℚ × ℚ) → Option (List (ℚ × ℚ))
  | 0, _, _ => none
  | _ + 1, [], pts => some pts
  | fuel + 1, (partA, partB) :: rest, pts =>
    match intersectionStep splitL splitR ε partA partB pts with
    | IntersectAction.discard => intersectionsLoop splitL splitR ε fuel rest pts
    | IntersectAction.accept newPts => intersectionsLoop splitL splitR ε fuel rest newPts
    | IntersectAction.push pairs =>
      intersectionsLoop splitL splitR ε fuel (pairs.reverse ++ rest) pts

/-- Insertion sort, modelling `std::sort` on the extrema values. -/
def insertSorted (x : ℚ) : List ℚ → List ℚ
  | [] => [x]
  | y :: ys => if x ≤ y then x :: y :: ys else y :: insertSorted x ys

/-- Ascending sort of a rational list. -/
def sortQ : List ℚ → List ℚ
  | [] => []
  | x :: xs => insertSorted x (sortQ xs)

/-- The sub-curve construction of the self-intersection branch: walk the sorted
extrema, repeatedly splitting off the part left of `t_k − ε/2` and keeping the
part right of `t_k + ε/2` of the current tail, remapping the remaining
parameters by `x ↦ (x − t_k)/(1 − t_k)`.  The accumulator keeps the newest
sub-curve (the vector's `back()`) at its head.  `splitLAt z`/`splitRAt z` model
`splittingCoeffsLeft/Right(N, z) · cp`. -/
def selfSeedGo (splitLAt splitRAt : ℚ → List (ℚ × ℚ) → List (ℚ × ℚ)) (ε : ℚ)
    (cp0 : List (ℚ × ℚ)) : List ℚ → List (List (ℚ × ℚ)) → List (List (ℚ × ℚ))
  | [], acc => acc
  | tk :: rest, acc =>
    let base := acc.headD cp0
    let tail := acc.tail
    let acc' := splitRAt (tk + ε / 2) base :: splitLAt (tk - ε / 2) base :: tail
    selfSeedGo splitLAt splitRAt ε cp0 (rest.map fun x => (x - tk) / (1 - tk)) acc'
termination_by ts _ => ts.length
decreasing_by
  simp [List.length_map]

/-- All ordered pairs `(l[k], l[i])` with `k < i`, in the source's seeding
order. -/
def allPairs : List (List (ℚ × ℚ)) → List (List (ℚ × ℚ) × List (ℚ × ℚ))
  | [] => []
  | x :: xs => (xs.map fun y => (x, y)) ++ allPairs xs

/-- The self-intersection branch of `Curve::intersections` (`this == &curve`):
sort the extrema, build the `ε`-shifted sub-curves, seed the work stack with all
pairs, and run the subdivision loop (the loop splits at `z = ½`, i.e. with
`splitLAt ½` / `splitRAt ½`). -/
def selfIntersections (splitLAt splitRAt : ℚ → List (ℚ × ℚ) → List (ℚ × ℚ)) (ε : ℚ)
    (cp : List (ℚ × ℚ)) (extrema : List ℚ) (fuel : ℕ) : Option (List (ℚ × ℚ)) :=
  let subcurves := (selfSeedGo splitLAt splitRAt ε cp (sortQ extrema) []).reverse
  let pairs := allPairs subcurves
  intersectionsLoop (splitLAt (1 / 2)) (splitRAt (1 / 2)) ε fuel pairs.reverse []

/-! ## Concrete curves used as witnesses -/

/-- The segment from `(0,0)` to `(1,0)` (unit speed). -/
def lineCurve : Curve := ⟨2, ![(0, 0), (1, 0)]⟩

/-- The cubic of the spec's scenario S1: `P = [(0,0),(1,2),(2,−1),(3,0)]`. -/
def s1Curve : Curve := ⟨4, ![(0, 0), (1, 2), (2, -1), (3, 0)]⟩

/-- The quadratic of the spec's scenario S2: `P = [(0,0),(1,2),(2,0)]`. -/
def quadCurve : Curve := ⟨3, ![(0, 0), (1, 2), (2, 0)]⟩

/-! ## Claim theorems -/

/-- C1: for every curve with `n ≥ 1` control points and every `t ∈ [0,1]`,
`value_at(t)` equals `[1, t, …, t^(n−1)] · B_n · P`, and this equals the
reference Bernstein/de Casteljau evaluation
`C(t) = Σ_k C(n−1,k) (1−t)^(n−1−k) t^k P_k`; for `n = 0`, `value_at(t)`
returns the origin `(0,0)`. -/
theorem valueAt_matches_bernstein (c : Curve) (t : ℚ) (h0 : 0 ≤ t) (h1 : t ≤ 1) :
    (1 ≤ c.N →
      valueAt c t =
        (∑ i : Fin c.N, t ^ (i : ℕ) * ∑ j : Fin c.N, bernsteinCoeffs c.N i j * (c.P j).1,
         ∑ i : Fin c.N, t ^ (i : ℕ) * ∑ j : Fin c.N, bernsteinCoeffs c.N i j * (c.P j).2) ∧
      valueAt c t = bernsteinRefEval c t) ∧
    (c.N = 0 → valueAt c t = (0, 0)) := by
  constructor
  · intro hn
    refine ⟨?_, valueAt_eq_bernsteinRef c hn t⟩
    rw [valueAt, if_neg (by omega)]
  · intro hz
    rw [valueAt, if_pos hz]

/-- Witness for C1 at the spec's scenario S1: the cubic
`[(0,0),(1,2),(2,−1),(3,0)]` at `t = ½` evaluates to `(3/2, 3/8)` in both
forms. -/
theorem valueAt_matches_bernstein_witness :
    (0 : ℚ) ≤ 1 / 2 ∧ (1 / 2 : ℚ) ≤ 1 ∧ 1 ≤ s1Curve.N ∧
      valueAt s1Curve (1 / 2) = bernsteinRefEval s1Curve (1 / 2) ∧
      valueAt s1Curve (1 / 2) = (3 / 2, 3 / 8) :=
  ⟨by norm_num, by norm_num, by decide,
   ((valueAt_matches_bernstein s1Curve (1 / 2) (by norm_num) (by norm_num)).1 (by decide)).2,
   by
    rw [valueAt_eq_bernsteinRef s1Curve (by decide) (1 / 2), bernsteinRefEval]
    dsimp only [s1Curve]
    norm_num [Fin.sum_univ_succ, Fin.sum_univ_zero, Matrix.cons_val_zero, Matrix.cons_val_one,
      Matrix.cons_val_succ, Matrix.head_cons, Nat.choose]⟩

/-- C2: each precondition violation — `lower_order` on a curve with `n = 2`,
`manipulate_curvature` with `n` outside `{3,4}`, `derivative(0)` — raises a
distinct logic-error kind, and the receiver's control points and `n` are left
unchanged on such a failure. -/
theorem precondition_errors (lowerProduct : ℕ → List (ℚ × ℚ) → List (ℚ × ℚ))
    (c : Curve) (t : ℚ) (pt : ℚ × ℚ) :
    (c.N = 2 →
      lowerOrderRun lowerProduct c =
        (Except.error (CurveError.logicError "Cannot further reduce the order of curve."), c)) ∧
    (c.N < 3 ∨ 4 < c.N →
      manipulateCurvatureRun c t pt =
        (Except.error
          (CurveError.logicError "Only quadratic and cubic curves can be manipulated"), c)) ∧
    derivativeN c 0 =
      Except.error (CurveError.invalidArgument "double 'n' cannot be zero.") ∧
    (CurveError.logicError "Cannot further reduce the order of curve." ≠
        CurveError.logicError "Only quadratic and cubic curves can be manipulated" ∧
      CurveError.logicError "Cannot further reduce the order of curve." ≠
        CurveError.invalidArgument "double 'n' cannot be zero." ∧
      CurveError.logicError "Only quadratic and cubic curves can be manipulated" ≠
        CurveError.invalidArgument "double 'n' cannot be zero.") := by
  refine ⟨?_, ?_, rfl, by decide⟩
  · intro h
    rw [lowerOrderRun, if_pos h]
  · intro h
    rw [manipulateCurvatureRun, if_pos h]

/-- Witness for C2: on the linear curve `[(0,0),(1,0)]` all three violations
return their errors and leave the curve unchanged. -/
theorem precondition_errors_witness :
    lineCurve.N = 2 ∧
    lowerOrderRun (fun _ l => l) lineCurve =
      (Except.error (CurveError.logicError "Cannot further reduce the order of curve."),
        lineCurve) ∧
    manipulateCurvatureRun lineCurve 0 (0, 0) =
      (Except.error
        (CurveError.logicError "Only quadratic and cubic curves can be manipulated"),
        lineCurve) ∧
    derivativeN lineCurve 0 =
      Except.error (CurveError.invalidArgument "double 'n' cannot be zero.") :=
  ⟨rfl,
   (precondition_errors (fun _ l => l) lineCurve 0 (0, 0)).1 rfl,
   (precondition_errors (fun _ l => l) lineCurve 0 (0, 0)).2.1 (Or.inl (by decide)),
   (precondition_errors (fun _ l => l) lineCurve 0 (0, 0)).2.2.1⟩

/-- C3 counterexample: `value_at` performs no domain check.  On the segment
`[(0,0),(1,0)]` the out-of-domain argument `t = 2` is not reported to the
caller as an error: the call returns the extrapolated point `(2, 0)`. -/
theorem valueAt_out_of_domain_no_error :
    valueAtChecked lineCurve 2 = Except.ok (2, 0) := by
  rw [valueAtChecked, valueAt_eq_bernsteinRef lineCurve (by decide) 2, bernsteinRefEval]
  dsimp only [lineCurve]
  norm_num [Fin.sum_univ_succ, Fin.sum_univ_zero, Matrix.cons_val_zero, Matrix.cons_val_one,
    Matrix.cons_val_succ, Matrix.head_cons, Nat.choose]

/-- C3 amended: an argument `t` outside `[0,1]` is NOT treated as a
precondition violation: `value_at` contains no domain check, always returns
normally, and yields the algebraic (extrapolated) Bernstein value at any `t`. -/
theorem valueAt_total_no_domain_check (c : Curve) (t : ℚ) (h : 1 ≤ c.N) :
    valueAtChecked c t = Except.ok (bernsteinRefEval c t) := by
  rw [valueAtChecked, valueAt_eq_bernsteinRef c h t]

/-- Witness for the amended C3, at the out-of-domain input `t = 2`. -/
theorem valueAt_total_no_domain_check_witness :
    1 ≤ lineCurve.N ∧
      valueAtChecked lineCurve 2 = Except.ok (bernsteinRefEval lineCurve 2) ∧
      bernsteinRefEval lineCurve 2 = (2, 0) :=
  ⟨by decide, valueAt_total_no_domain_check lineCurve 2 (by decide), by
    rw [bernsteinRefEval]
    dsimp only [lineCurve]
    norm_num [Fin.sum_univ_succ, Fin.sum_univ_zero, Matrix.cons_val_zero, Matrix.cons_val_one,
      Matrix.cons_val_succ, Matrix.head_cons, Nat.choose]⟩

/-- Real roots of a column polynomial as the code obtains them: the
companion-matrix solver is invoked only when the trimmed coefficient vector
still has more than one coefficient (positive degree). -/
def polyRealRoots (solver : List ℚ → List ℚ) (p : List ℚ) : List ℚ :=
  if 1 < p.length then solver p else []

lemma length_dropWhile_leQ (p : ℚ → Bool) (l : List ℚ) :
    (l.dropWhile p).length ≤ l.length := by
  induction l with
  | nil => simp [List.dropWhile]
  | cons x xs ih =>
    rw [List.dropWhile_cons]
    by_cases h : p x = true
    · simp only [h, if_true]
      exact Nat.le_succ_of_le ih
    · simp [h]

lemma trimZeroes_length_le (v : List ℚ) : (trimZeroes v).length ≤ v.length := by
  rw [trimZeroes, List.length_reverse]
  calc (List.dropWhile (fun x => decide (x = 0)) v.reverse).length
      ≤ v.reverse.length := length_dropWhile_leQ _ _
    _ = v.length := List.length_reverse v

/-- C4: for every curve (and any behaviour of the external solver), `roots()`
is exactly: trim each column of `Q = B_n · P` of trailing zeros, take the real
roots of each column polynomial, keep those in `[0,1]`, and concatenate the
x-roots before the y-roots with no duplicate removal. -/
theorem roots_characterization (solver : List ℚ → List ℚ) (c : Curve) :
    rootsC solver c =
      (polyRealRoots solver (trimZeroes (curvePolyX c))).filter
        (fun t => decide (0 ≤ t ∧ t ≤ 1)) ++
      (polyRealRoots solver (trimZeroes (curvePolyY c))).filter
        (fun t => decide (0 ≤ t ∧ t ≤ 1)) := by
  have hpred : ∀ l : List ℚ,
      l.filter (fun t => decide (0 ≤ t) && decide (t ≤ 1)) =
        l.filter (fun t => decide (0 ≤ t ∧ t ≤ 1)) := by
    intro l
    refine List.filter_congr fun x _ => ?_
    by_cases hx0 : (0 : ℚ) ≤ x <;> by_cases hx1 : x ≤ 1 <;> simp [hx0, hx1]
  rw [rootsC]
  by_cases hN : 1 < c.N
  · rw [if_pos hN]
    simp only [polyRealRoots]
    rw [hpred, hpred]
  · rw [if_neg hN]
    have hX : ¬ 1 < (trimZeroes (curvePolyX c)).length := by
      have h1 := trimZeroes_length_le (curvePolyX c)
      have h2 : (curvePolyX c).length = c.N := by
        rw [curvePolyX, List.length_ofFn]
      omega
    have hY : ¬ 1 < (trimZeroes (curvePolyY c)).length := by
      have h1 := trimZeroes_length_le (curvePolyY c)
      have h2 : (curvePolyY c).length = c.N := by
        rw [curvePolyY, List.length_ofFn]
      omega
    rw [polyRealRoots, polyRealRoots, if_neg hX, if_neg hY]
    simp

/-- C5: for `n ≥ 2`, `elevate_order()` replaces `P` by `E_n · P`, increments
`order()` by one, and preserves the geometric curve exactly: the new
`value_at(t)` equals the old one at every `t ∈ [0,1]`. -/
theorem elevateOrder_preserves (c : Curve) (hc : 2 ≤ c.N) :
    (elevateOrder c).N - 1 = (c.N - 1) + 1 ∧
    ∀ t : ℚ, 0 ≤ t → t ≤ 1 → valueAt (elevateOrder c) t = valueAt c t := by
  constructor
  · show c.N + 1 - 1 = (c.N - 1) + 1
    omega
  · intro t h0 h1
    have h1n : 1 ≤ c.N := by omega
    have h2n : 1 ≤ (elevateOrder c).N := by
      show 1 ≤ c.N + 1
      omega
    rw [valueAt_eq_bernsteinRef _ h2n t, valueAt_eq_bernsteinRef c h1n t]
    show (∑ i : Fin (c.N + 1), _, ∑ i : Fin (c.N + 1), _) = _
    rw [bernsteinRefEval]
    refine Prod.ext ?_ ?_
    · exact elevate_preserves c.N h1n (fun j => (c.P j).1) t
    · exact elevate_preserves c.N h1n (fun j => (c.P j).2) t

/-- Witness for C5 at the spec's scenario S2 quadratic `[(0,0),(1,2),(2,0)]`,
sampled at `t = ½`. -/
theorem elevateOrder_preserves_witness :
    2 ≤ quadCurve.N ∧
    (elevateOrder quadCurve).N - 1 = (quadCurve.N - 1) + 1 ∧
    valueAt (elevateOrder quadCurve) (1 / 2) = valueAt quadCurve (1 / 2) :=
  ⟨by decide, (elevateOrder_preserves quadCurve (by decide)).1,
   (elevateOrder_preserves quadCurve (by decide)).2 (1 / 2) (by norm_num) (by norm_num)⟩

/-- Sturm chain of `p(t) = 2t − 1` (root `t = 1/2`), as `Sturm::chain` builds
it: row 0 is `p`, row 1 is `p′ = 2`. -/
def demoSturmChain : List (List ℚ) := [[2, -1], [0, 2]]

/-- C6 counterexample: processing the interval `(1/4, 1/2)` of the chain of
`p(t) = 2t − 1` with `ε = 3/10` and the `All` filter: the root count is 1 and
the width `1/4` is below `ε`, yet the emitted root is `5/16` — the midpoint of
the LEFT HALF of the interval — and not the interval midpoint `M = 3/8` the
claim states.  (This interval is reached by an actual `Sturm::roots` run on
`p` with this `ε`.) -/
theorem sturm_emit_not_midpoint :
    sturmRootCount demoSturmChain (1 / 4) (1 / 2) = 1 ∧
    ((1 / 2 : ℚ) - 1 / 4 < 3 / 10) ∧
    sturmIterate demoSturmChain 8 (3 / 10) (1 / 4) (1 / 2) false = SturmAction.emit (5 / 16) ∧
    ((5 / 16 : ℚ) ≠ (1 / 4 + 1 / 2) / 2) := by
  have hcount : sturmRootCount demoSturmChain (1 / 4) (1 / 2) = 1 := by
    norm_num [sturmRootCount, sturmInterval, signChanges, signbitQ, rowValue, demoSturmChain,
      List.range_succ, List.countP_cons, List.countP_nil]
  refine ⟨hcount, by norm_num, ?_, by norm_num⟩
  rw [sturmIterate]
  simp only [hcount]
  norm_num

/-- C6 amended: in the isolation step (with the `All` filter), an interval with
nonzero root count whose HALF-width `(b−a)/2` is below `ε` emits
`a + (b−a)/4` — the midpoint of its left half-interval, not of the interval;
an interval with root count 0 is discarded; every other interval is split at
`M = (a+b)/2` into `(a,M)` and `(M,b)` and recursed. -/
theorem sturmIterate_characterization (chain : List (List ℚ)) (ε a b : ℚ) (flag : Bool) :
    (sturmRootCount chain a b = 0 → sturmIterate chain 8 ε a b flag = SturmAction.discard) ∧
    (sturmRootCount chain a b ≠ 0 → (b - a) / 2 < ε →
      sturmIterate chain 8 ε a b flag = SturmAction.emit (a + (b - a) / 4)) ∧
    (sturmRootCount chain a b ≠ 0 → ¬ ((b - a) / 2 < ε) →
      sturmIterate chain 8 ε a b flag =
        SturmAction.split (a, (a + b) / 2, flag) ((a + b) / 2, b, flag)) := by
  have hmid : (a + b) / 2 - a = (b - a) / 2 := by ring
  have hemit : (a + (a + b) / 2) / 2 = a + (b - a) / 4 := by ring
  refine ⟨?_, ?_, ?_⟩
  · intro h0
    rw [sturmIterate]
    simp [h0]
  · intro hnz hlt
    rw [sturmIterate]
    simp only [hmid, hemit]
    simp [hnz, hlt]
  · intro hnz hge
    rw [sturmIterate]
    simp only [hmid, hemit]
    rcases hc : sturmRootCount chain a b with _ | m
    · exact absurd hc hnz
    · rcases m with _ | m'
      · simp [hge]
      · simp [hge]

/-- Witness for the amended C6 on the chain of `p(t) = 2t − 1` with `ε = 3/10`:
`(3/5, 1)` has count 0 and is discarded; `(1/4, 1/2)` emits `5/16`; `(0, 1)`
is split at `1/2`. -/
theorem sturmIterate_characterization_witness :
    sturmIterate demoSturmChain 8 (3 / 10) (3 / 5) 1 false = SturmAction.discard ∧
    sturmIterate demoSturmChain 8 (3 / 10) (1 / 4) (1 / 2) false =
      SturmAction.emit (1 / 4 + (1 / 2 - 1 / 4) / 4) ∧
    sturmIterate demoSturmChain 8 (3 / 10) 0 1 false =
      SturmAction.split (0, (0 + 1) / 2, false) ((0 + 1) / 2, 1, false) := by
  have h1 : sturmRootCount demoSturmChain (3 / 5) 1 = 0 := by
    norm_num [sturmRootCount, sturmInterval, signChanges, signbitQ, rowValue, demoSturmChain,
      List.range_succ, List.countP_cons, List.countP_nil]
  have h2 : sturmRootCount demoSturmChain (1 / 4) (1 / 2) = 1 := by
    norm_num [sturmRootCount, sturmInterval, signChanges, signbitQ, rowValue, demoSturmChain,
      List.range_succ, List.countP_cons, List.countP_nil]
  have h3 : sturmRootCount demoSturmChain 0 1 = 1 := by
    norm_num [sturmRootCount, sturmInterval, signChanges, signbitQ, rowValue, demoSturmChain,
      List.range_succ, List.countP_cons, List.countP_nil]
  exact ⟨(sturmIterate_characterization demoSturmChain (3 / 10) (3 / 5) 1 false).1 h1,
    (sturmIterate_characterization demoSturmChain (3 / 10) (1 / 4) (1 / 2) false).2.1
      (by rw [h2]; norm_num) (by norm_num),
    (sturmIterate_characterization demoSturmChain (3 / 10) 0 1 false).2.2
      (by rw [h3]; norm_num) (by norm_num)⟩

/-- Oracle values of the unit-speed segment `[(0,0),(1,0)]` (= `lineCurve`):
`length(u) = u`, `‖C′‖ ≡ 1`, `‖C″‖ ≡ 0` — all exact values of the source's
Gauss–Legendre quadrature and derivative norms on this curve. -/
def lenLine : ℚ → ℚ := fun u => u

/-- `‖C′(t)‖` of the unit-speed segment. -/
def d1Line : ℚ → ℚ := fun _ => 1

/-- `‖C″(t)‖` of the unit-speed segment. -/
def d2Line : ℚ → ℚ := fun _ => 0

/-- C7 counterexample: on the unit-speed segment with `t = 0`, `s = 1/4`,
`ε = 1/4` the initial residual satisfies `|f| = ε` exactly.  The source loop
(`while |f| > ε`) stops at once and returns `0`; the claim's loop ("until
`|f| < ε`") would iterate once more and return `1/4`.  The two disagree. -/
theorem iterateByLength_stop_boundary :
    iterateByLength lenLine d1Line d2Line 0 (1 / 4) (1 / 4) 5 = some 0 ∧
    iterateByLengthSpec lenLine d1Line d2Line 0 (1 / 4) (1 / 4) 5 = some (1 / 4) ∧
    some (0 : ℚ) ≠ some (1 / 4 : ℚ) := by
  refine ⟨?_, ?_, by norm_num⟩
  · simp only [iterateByLength]
    rw [if_neg (by norm_num [lenLine]), if_neg (by norm_num [lenLine])]
    rw [halleyLoop, if_neg (by norm_num [abs_of_nonneg])]
  · simp only [iterateByLengthSpec]
    rw [if_neg (by norm_num [lenLine]), if_neg (by norm_num [lenLine])]
    rw [halleyLoopSpec, if_pos (by norm_num [abs_of_nonneg])]
    have hstep : halleyStep lenLine d1Line d2Line (lenLine 0 + 1 / 4) (0, -(1 / 4)) =
        (1 / 4, 0) := by
      norm_num [halleyStep, lenLine, d1Line, d2Line]
    rw [hstep, halleyLoopSpec, if_neg (by norm_num [abs_of_nonneg])]

/-- Invariant of the Halley loop: the second state component is always
`length(t) − (length(t₀) + s)`, so a normal exit returns a parameter whose
length misses the target by at most `ε`. -/
lemma halleyLoop_result (len d1 d2 : ℚ → ℚ) (sT ε : ℚ) :
    ∀ (fuel : ℕ) (st : ℚ × ℚ), st.2 = len st.1 - sT →
      ∀ tr, halleyLoop len d1 d2 sT ε fuel st = some tr → |len tr - sT| ≤ ε := by
  intro fuel
  induction fuel with
  | zero =>
    intro st hinv tr h
    simp [halleyLoop] at h
  | succ n ih =>
    intro st hinv tr h
    rw [halleyLoop] at h
    by_cases hc : |st.2| > ε
    · rw [if_pos hc] at h
      exact ih (halleyStep len d1 d2 sT st) (by simp [halleyStep]) tr h
    · rw [if_neg hc] at h
      injection h with h
      subst h
      rw [← hinv] at *
      exact le_of_not_lt hc

/-- C7 amended: `iterate_by_length(t, s, ε)` returns 0 when
`length(t) + s < 0`, returns 1 when `length(t) + s > length()`, and otherwise
iterates the Halley update `t ← t − (2·f·f′)/(2·f′² − f·f″)` while `|f| > ε`
(i.e. until `|f| ≤ ε`, not `< ε`); any non-clamped result `t*` therefore
satisfies `|length(t*) − (length(t) + s)| ≤ ε`. -/
theorem iterateByLength_characterization (len d1 d2 : ℚ → ℚ) (t s ε : ℚ) (fuel : ℕ) :
    (len t + s < 0 → iterateByLength len d1 d2 t s ε fuel = some 0) ∧
    (¬ (len t + s < 0) → len t + s > len 1 →
      iterateByLength len d1 d2 t s ε fuel = some 1) ∧
    (∀ tr, ¬ (len t + s < 0) → ¬ (len t + s > len 1) →
      iterateByLength len d1 d2 t s ε fuel = some tr → |len tr - (len t + s)| ≤ ε) := by
  refine ⟨?_, ?_, ?_⟩
  · intro h
    simp only [iterateByLength]
    rw [if_pos h]
  · intro h0 h1
    simp only [iterateByLength]
    rw [if_neg h0, if_pos h1]
  · intro tr h0 h1 h
    simp only [iterateByLength] at h
    rw [if_neg h0, if_neg h1] at h
    exact halleyLoop_result len d1 d2 (len t + s) ε fuel (t, -s)
      (by show -s = len t - (len t + s); ring) tr h

/-- Witness for the amended C7 on the unit-speed segment: underflow clamps to
0, overflow clamps to 1, and a normal return meets the `ε` stopping bound. -/
theorem iterateByLength_characterization_witness :
    iterateByLength lenLine d1Line d2Line 0 (-1) (1 / 4) 5 = some 0 ∧
    iterateByLength lenLine d1Line d2Line 0 2 (1 / 4) 5 = some 1 ∧
    |lenLine 0 - (lenLine 0 + 1 / 4)| ≤ (1 / 4 : ℚ) := by
  refine ⟨?_, ?_, ?_⟩
  · exact (iterateByLength_characterization lenLine d1Line d2Line 0 (-1) (1 / 4) 5).1
      (by norm_num [lenLine])
  · exact (iterateByLength_characterization lenLine d1Line d2Line 0 2 (1 / 4) 5).2.1
      (by norm_num [lenLine]) (by norm_num [lenLine])
  · refine (iterateByLength_characterization lenLine d1Line d2Line 0 (1 / 4) (1 / 4) 5).2.2 0
      (by norm_num [lenLine]) (by norm_num [lenLine]) ?_
    simp only [iterateByLength]
    rw [if_neg (by norm_num [lenLine]), if_neg (by norm_num [lenLine])]
    rw [halleyLoop, if_neg (by norm_num [abs_of_nonneg])]

/-- Oracle values of the degenerate quadratic `[(0,0),(0,0),(1,0)]`:
`C′(u) = (2u, 0)`, so `length(u) = u·|u|`, `‖C′(u)‖ = 2|u|`, `‖C″‖ ≡ 2` —
exact values of the source's quadrature (the integrand is polynomial on the
integration interval) and derivative norms. -/
def lenQuad : ℚ → ℚ := fun u => u * |u|

/-- `‖C′(u)‖` of the degenerate quadratic. -/
def d1Quad : ℚ → ℚ := fun u => 2 * |u|

/-- `‖C″(u)‖` of the degenerate quadratic. -/
def d2Quad : ℚ → ℚ := fun _ => 2

/-- C8: the Halley loop of `iterate_by_length` has NO max-iteration guard and
does not always terminate.  On the degenerate quadratic `[(0,0),(0,0),(1,0)]`,
the call `iterate_by_length(0, 1/2, 1/4)` passes both clamp checks and then
repeats the state `(t, f) = (0, −1/2)` forever — `f′ = ‖C′(0)‖ = 0` makes the
Halley update `t ← t − 0/1` the identity — so the loop never terminates for
ANY iteration budget, and no best-estimate value is ever returned. -/
theorem iterateByLength_no_guard_nonterminating :
    (∀ fuel : ℕ, iterateByLength lenQuad d1Quad d2Quad 0 (1 / 2) (1 / 4) fuel = none) ∧
    halleyStep lenQuad d1Quad d2Quad (lenQuad 0 + 1 / 2) (0, -(1 / 2)) = (0, -(1 / 2)) := by
  have hfix : halleyStep lenQuad d1Quad d2Quad (lenQuad 0 + 1 / 2) (0, -(1 / 2)) =
      (0, -(1 / 2)) := by
    norm_num [halleyStep, lenQuad, d1Quad, d2Quad]
  refine ⟨?_, hfix⟩
  have hloop : ∀ fuel : ℕ,
      halleyLoop lenQuad d1Quad d2Quad (lenQuad 0 + 1 / 2) (1 / 4) fuel (0, -(1 / 2)) = none := by
    intro fuel
    induction fuel with
    | zero => rfl
    | succ n ih =>
      rw [halleyLoop, if_pos (by norm_num [abs_of_nonneg]), hfix, ih]
  intro fuel
  simp only [iterateByLength]
  rw [if_neg (by norm_num [lenQuad]), if_neg (by norm_num [lenQuad])]
  exact hloop fuel

/-- C9 counterexample: with `ε = 1` and the point `(0,0)` already accepted, a
converged pair whose `box(A)` center is `(1,0)` lies at distance exactly
`ε = 1` from the accepted point — a distance that does NOT exceed `ε` — yet the
source accepts it (its `none_of` test only rejects distances strictly below
`ε`). -/
theorem intersection_accept_at_epsilon :
    intersectionStep id id 1 [(1, 0), (1, 0)] [(1, 0), (1, 0)] [(0, 0)] =
      IntersectAction.accept [(0, 0), (1, 0)] ∧
    ¬ ((1 : ℚ) ^ 2 < distSq (0, 0) (1, 0)) := by
  constructor
  · rw [intersectionStep]
    norm_num [bboxOf, boxIntersects, diagSq, boxCenter, distSq]
  · norm_num [distSq]

/-- C9 amended: one loop iteration of `intersections`, characterized.  A popped
pair with disjoint boxes is discarded; when both box diagonals are below `ε`
the center of `box(A)` is accepted, added only if its distance to every
previously accepted point is AT LEAST `ε` (not: exceeds `ε`); otherwise each
side whose diagonal is still at least `ε` is halved and every combination is
pushed (right halves first, as the source does). -/
theorem intersectionStep_characterization
    (splitL splitR : List (ℚ × ℚ) → List (ℚ × ℚ)) (ε : ℚ)
    (partA partB : List (ℚ × ℚ)) (pts : List (ℚ × ℚ)) :
    intersectionStep splitL splitR ε partA partB pts =
      if ¬ boxIntersects (bboxOf partA) (bboxOf partB) then IntersectAction.discard
      else if diagSq (bboxOf partA) < ε ^ 2 ∧ diagSq (bboxOf partB) < ε ^ 2 then
        IntersectAction.accept
          (if pts.all (fun p => decide (ε ^ 2 ≤ distSq p (boxCenter (bboxOf partA)))) then
            pts ++ [boxCenter (bboxOf partA)]
          else pts)
      else if diagSq (bboxOf partA) < ε ^ 2 then
        IntersectAction.push [(partA, splitR partB), (partA, splitL partB)]
      else if diagSq (bboxOf partB) < ε ^ 2 then
        IntersectAction.push [(splitR partA, partB), (splitL partA, partB)]
      else
        IntersectAction.push
          [(splitR partA, splitR partB), (splitL partA, splitR partB),
           (splitR partA, splitL partB), (splitL partA, splitL partB)] := by
  rw [intersectionStep]
  by_cases h0 : ¬ boxIntersects (bboxOf partA) (bboxOf partB) = true
  · simp [h0]
  · rw [if_neg h0, if_neg h0]
    by_cases hAB : diagSq (bboxOf partA) < ε ^ 2 ∧ diagSq (bboxOf partB) < ε ^ 2
    · rw [if_pos hAB, if_pos hAB]
      have hfun : (fun p => decide (¬ distSq p (boxCenter (bboxOf partA)) < ε ^ 2)) =
          (fun p => decide (ε ^ 2 ≤ distSq p (boxCenter (bboxOf partA)))) := by
        funext p
        exact decide_eq_decide.mpr not_lt
      simp only [hfun]
    · rw [if_neg hAB, if_neg hAB]
      by_cases hA : diagSq (bboxOf partA) < ε ^ 2
      · have hB : ¬ diagSq (bboxOf partB) < ε ^ 2 := fun hb => hAB ⟨hA, hb⟩
        rw [if_pos hA, if_neg hB, if_pos hA]
        simp [List.flatMap]
      · rw [if_neg hA, if_neg hA]
        by_cases hB : diagSq (bboxOf partB) < ε ^ 2
        · rw [if_pos hB, if_pos hB]
          simp [List.flatMap]
        · rw [if_neg hB, if_neg hB]
          simp [List.flatMap]

/-- C10: in the self-intersection branch, when the extrema list (the real
roots of the derivative in `[0,1]`) is empty, no sub-curves are built, no pair
is seeded, and the loop terminates at once on the empty stack with the empty
point set — whatever the curve, `ε`, the splitting matrices, and the solver. -/
theorem selfIntersections_no_extrema
    (splitLAt splitRAt : ℚ → List (ℚ × ℚ) → List (ℚ × ℚ))
    (solver : List ℚ → List ℚ) (c : Curve) (ε : ℚ) (fuel : ℕ)
    (hex : extremaC solver c = []) (hfuel : 1 ≤ fuel) :
    selfIntersections splitLAt splitRAt ε (cpList c) (extremaC solver c) fuel = some [] := by
  rw [hex]
  obtain ⟨f, rfl⟩ : ∃ f, fuel = f + 1 := ⟨fuel - 1, by omega⟩
  simp [selfIntersections, sortQ, selfSeedGo, allPairs, intersectionsLoop]

/-- Witness for C10: the segment `[(0,0),(1,0)]` has a constant derivative
curve with a single control point, so its extrema list is empty (whatever the
solver does), and the self-intersection result is the empty set. -/
theorem selfIntersections_no_extrema_witness :
    extremaC (fun _ => []) lineCurve = [] ∧
    selfIntersections (fun _ l => l) (fun _ l => l) (1 / 10) (cpList lineCurve)
      (extremaC (fun _ => []) lineCurve) 1 = some [] :=
  ⟨rfl,
   selfIntersections_no_extrema (fun _ l => l) (fun _ l => l) (fun _ => []) lineCurve
     (1 / 10) 1 rfl (by norm_num)⟩

end BezierSpec
